import Mathlib

/-!
# bcache: gossip messages, the last-writer-wins merge, and the peer

Shallow embedding of `message.go` and `peer.go`.

* `int64` timestamps are `Int`; the code only compares them with `<`, so no
  arithmetic can overflow, and every `int64` value is an `Int`.
* `mesh.PeerName` (a `uint64`) is `Nat`; the code only compares it with `==`.
* `interface{}` payloads are a type parameter `V`; the code only copies them.
* A Go `map[string]entry` is `GoMap`: a list of key/value pairs whose keys are
  pairwise distinct.  The order of the list is the order in which a `range`
  loop visits the map; Go leaves that order unspecified, and the theorems
  quantify over every list, hence over every order.  A map is taken to be
  allocated (as `make` returns it); reading never distinguishes a nil map from
  an empty one.
* The mutexes are not modelled: every function is embedded as one atomic step.
-/

namespace bcache

/-! ## Data model (`message.go`) -/

/-- Go type `mesh.PeerName`. -/
abbrev PeerName := Nat

/-- Go type `entry`: a single key value entry. -/
structure entry (V : Type) where
  Val : V
  Expired : Int
  Deleted : Int
deriving DecidableEq, Repr

/-- First value stored under `k` in a list of pairs. -/
def lookupKey {V : Type} (k : String) : List (String × V) → Option V
  | [] => none
  | kv :: rest => if kv.1 = k then some kv.2 else lookupKey k rest

/-- Go `map[string]V`: pairs with pairwise distinct keys. -/
structure GoMap (V : Type) where
  items : List (String × V)
  nodupKeys : (items.map Prod.fst).Nodup

namespace GoMap

variable {V : Type}

/-- Go `make(map[string]V, n)`: the size hint `n` only pre-sizes storage. -/
def make (_n : Nat) : GoMap V := ⟨[], List.nodup_nil⟩

/-- Go `v, ok := m[k]`: `none` stands for `ok == false`. -/
def get? (m : GoMap V) (k : String) : Option V := lookupKey k m.items

/-- Go `len(m)`. -/
def len (m : GoMap V) : Nat := m.items.length

/-- Go `m[k] = v`: the pair for `k` is replaced, or added when `k` is new. -/
def set (m : GoMap V) (k : String) (v : V) : GoMap V :=
  { items := (k, v) :: m.items.filter (fun kv => decide (kv.1 ≠ k))
    nodupKeys := by
      rw [List.map_cons, List.nodup_cons]
      refine ⟨?_, List.Nodup.sublist (List.Sublist.map _ (List.filter_sublist _)) m.nodupKeys⟩
      intro hmem
      rcases List.mem_map.1 hmem with ⟨kv, hkv, hk⟩
      have hne := (List.mem_filter.1 hkv).2
      simp at hne
      exact hne hk }

/-- Pairs of `m` that satisfy `keep`. -/
def filter (m : GoMap V) (keep : String × V → Bool) : GoMap V :=
  { items := m.items.filter keep
    nodupKeys := List.Nodup.sublist (List.Sublist.map _ (List.filter_sublist _)) m.nodupKeys }

end GoMap

/-- Go type `message`: a gossip message (the mutex is not modelled). -/
structure message (V : Type) where
  PeerID : PeerName
  Entries : GoMap (entry V)

/-- Go constant `defaultNumEntries`. -/
def defaultNumEntries : Nat := 5

/-- Go `newMessageFromEntries`: copies the map pair by pair into a fresh one. -/
def newMessageFromEntries {V : Type} (peerID : PeerName) (entries : GoMap (entry V)) : message V :=
  { PeerID := peerID
    Entries := entries.items.foldl (fun newEntries kv => newEntries.set kv.1 kv.2)
      (GoMap.make entries.len) }

/-- Go `newMessage`. -/
def newMessage {V : Type} (peerID : PeerName) (numEntries : Nat) : message V :=
  let numEntries := if numEntries = 0 then defaultNumEntries else numEntries
  newMessageFromEntries peerID (GoMap.make numEntries)

/-- Go `(*message).add`: upsert of one entry. -/
def message.add {V : Type} (m : message V) (key : String) (val : V) (expired deleted : Int) :
    message V :=
  { m with Entries := m.Entries.set key { Val := val, Expired := expired, Deleted := deleted } }

/-- Body of the `range` loop of `mergeComplete` for one pair `k, v` of `other.Entries`:
`existing, ok := m.Entries[k]; if !ok || existing.Expired < v.Expired { m.Entries[k] = v }`. -/
def mergeStep {V : Type} (es : GoMap (entry V)) (kv : String × entry V) : GoMap (entry V) :=
  match es.get? kv.1 with
  | none => es.set kv.1 kv.2
  | some existing => if existing.Expired < kv.2.Expired then es.set kv.1 kv.2 else es

/-- Go `(*message).mergeComplete`.  The first component is the receiver `m` after the
call (its `Entries` map is updated in place), the second is the returned message,
a copy built by `newMessageFromEntries`. -/
def message.mergeComplete {V : Type} (m other : message V) : message V × message V :=
  let Entries := other.Entries.items.foldl mergeStep m.Entries
  ({ m with Entries := Entries }, newMessageFromEntries m.PeerID Entries)

/-- Go `(*message).Merge`: delegates to `mergeComplete`. -/
def message.Merge {V : Type} (m other : message V) : message V × message V :=
  m.mergeComplete other

/-! ## The peer (`peer.go`) -/

/-- Go `[]byte`. -/
abbrev Bytes := List Nat

/-- Go `error` values; a nil error is `none : Option GoError`. -/
abbrev GoError := String

/-- Go interface `mesh.Gossip`: the handle that `mesh.Router.NewGossip` returns. -/
abbrev Gossip := Nat

/-- Calls that leave `peer.go`: to the codec, to the cache store, to the registered
`mesh.Gossip` handle and to the logger.  Every peer operation reports the calls it
made, in order. -/
inductive call (V : Type) where
  | unmarshal (b : Bytes)
  | ccSet (key : String) (val : V) (expired deleted : Int)
  | ccDelete (key : String) (deleteTimestamp : Int)
  | ccMergeNew (msg : message V)
  | ccMergeDelta (msg : message V)
  | ccMergeComplete (msg : message V)
  | GossipBroadcast (send : Gossip) (msg : message V)
  | Debugf (msg : message V) (delta : Option (message V))

/-- The methods of `*cache` that `peer.go` calls.  The type `cache` is declared
outside these sources, so its methods are parameters: `σ` is the state of the store,
and a method maps the state before the call to its results and the state after.
A nil `mesh.GossipData` result is `none`. -/
structure cache (σ V : Type) where
  Set : σ → String → V → Int → Int → σ
  Delete : σ → String → Int → (V × Int × Bool) × σ
  mergeNew : σ → message V → Option (message V) × σ
  mergeDelta : σ → message V → Option (message V) × σ
  mergeComplete : σ → message V → σ

/-- Go function `unmarshal(b, &m)`, declared outside these sources: it fills `m` from
the frame `b` and returns an error or nil. -/
abbrev Unmarshal (V : Type) := Bytes → message V → message V × Option GoError

/-- Go type `peer`.  `cc` is the state of the peer's store and `send` is nil (`none`)
until `register` ran.  The channel `actionCh` only carries the closures of `register`,
`Set` and `Delete` to the worker loop, which runs them one at a time while the caller
waits; the embedding runs the closure at the call.  It covers a peer whose worker
loop is running, as `newPeer` starts it. -/
structure peer (σ : Type) where
  cc : σ
  name : PeerName
  send : Option Gossip

/-- Result of a peer operation: the returned values, the peer afterwards, and the
calls made. -/
structure outcome (σ V R : Type) where
  ret : R
  p : peer σ
  calls : List (call V)

/-- Go `newMessageFromBuf`: `var m message; err := unmarshal(b, &m); return &m, err`. -/
def newMessageFromBuf {V : Type} (unmarshal : Unmarshal V) (b : Bytes) :
    message V × Option GoError :=
  unmarshal b { PeerID := 0, Entries := GoMap.make 0 }

section
variable {σ V : Type}

/-- Go `(*peer).register`. -/
def peer.register (p : peer σ) (send : Gossip) : peer σ :=
  { p with send := some send }

/-- Go `(*peer).broadcast`: nothing is sent while `p.send == nil`. -/
def peer.broadcast (p : peer σ) (msg : message V) : List (call V) :=
  match p.send with
  | none => []
  | some send => [call.GossipBroadcast send msg]

/-- Go `(*peer).OnGossip`; the result is `(delta, err)`. -/
def peer.OnGossip (cc : cache σ V) (unmarshal : Unmarshal V) (p : peer σ) (buf : Bytes) :
    outcome σ V (Option (message V) × Option GoError) :=
  let r := newMessageFromBuf unmarshal buf
  let msg := r.1
  match r.2 with
  | some err => { ret := (none, some err), p := p, calls := [call.unmarshal buf] }
  | none =>
    let merged := cc.mergeNew p.cc msg
    let delta := merged.1
    { ret := (delta, none)
      p := { p with cc := merged.2 }
      calls := [call.unmarshal buf, call.ccMergeNew msg, call.Debugf msg delta] }

/-- Go `(*peer).OnGossipBroadcast`; the result is `(received, err)`. -/
def peer.OnGossipBroadcast (cc : cache σ V) (unmarshal : Unmarshal V) (p : peer σ)
    (src : PeerName) (update : Bytes) : outcome σ V (Option (message V) × Option GoError) :=
  if src = p.name then
    { ret := (none, none), p := p, calls := [] }
  else
    let r := newMessageFromBuf unmarshal update
    let msg := r.1
    match r.2 with
    | some err => { ret := (none, some err), p := p, calls := [call.unmarshal update] }
    | none =>
      let merged := cc.mergeDelta p.cc msg
      let received := merged.1
      { ret := (received, none)
        p := { p with cc := merged.2 }
        calls := [call.unmarshal update, call.ccMergeDelta msg, call.Debugf msg received] }

/-- Go `(*peer).OnGossipUnicast`; the result is the returned error. -/
def peer.OnGossipUnicast (cc : cache σ V) (unmarshal : Unmarshal V) (p : peer σ)
    (_src : PeerName) (update : Bytes) : outcome σ V (Option GoError) :=
  let r := newMessageFromBuf unmarshal update
  let msg := r.1
  match r.2 with
  | some err => { ret := some err, p := p, calls := [call.unmarshal update] }
  | none =>
    { ret := none
      p := { p with cc := cc.mergeComplete p.cc msg }
      calls := [call.unmarshal update, call.ccMergeComplete msg] }

/-- Go `(*peer).Set`: the closure writes the store, builds the one-entry message and
broadcasts it. -/
def peer.Set (cc : cache σ V) (p : peer σ) (key : String) (val : V) (expiredTimestamp : Int) :
    outcome σ V Unit :=
  let store := cc.Set p.cc key val expiredTimestamp 0
  let m := (newMessage p.name 1).add key val expiredTimestamp 0
  { ret := ()
    p := { p with cc := store }
    calls := call.ccSet key val expiredTimestamp 0 :: p.broadcast m }

/-- Go `(*peer).Delete`.  The function declares `exist` (zero value `false`) and
returns it.  Inside the closure, `val, expired, exist := p.cc.Delete(...)` is a short
variable declaration in a new block, so it declares a second `exist` that lives in
the closure only; the inner `let` below shadows the outer one in the same way. -/
def peer.Delete (cc : cache σ V) (p : peer σ) (key : String) (deleteTimestamp : Int) :
    outcome σ V Bool :=
  let exist : Bool := false
  let action : outcome σ V Unit :=
    let r := cc.Delete p.cc key deleteTimestamp
    let val := r.1.1
    let expired := r.1.2.1
    let exist := r.1.2.2
    if !exist then
      { ret := (), p := { p with cc := r.2 }, calls := [call.ccDelete key deleteTimestamp] }
    else
      let m := (newMessage p.name 1).add key val expired deleteTimestamp
      { ret := ()
        p := { p with cc := r.2 }
        calls := call.ccDelete key deleteTimestamp :: p.broadcast m }
  { ret := exist, p := action.p, calls := action.calls }

end

/-- Messages handed to `GossipBroadcast`, in order. -/
def broadcasts {V : Type} : List (call V) → List (message V)
  | [] => []
  | call.GossipBroadcast _ msg :: rest => msg :: broadcasts rest
  | _ :: rest => broadcasts rest

/-- Outcome of the loop body of `mergeComplete` for one key: `cur` is the receiver's
entry before the step (if any), `inc` the incoming entry (if the key is visited). -/
def resolve {V : Type} (cur inc : Option (entry V)) : Option (entry V) :=
  match inc with
  | none => cur
  | some v =>
    match cur with
    | none => some v
    | some existing => if existing.Expired < v.Expired then some v else some existing

/-! ## Sample collaborators for concrete evaluation -/

/-- Modelled from the spec: what the store's `mergeNew` and `mergeDelta` report (the
type `cache` is declared outside these sources).  After §4.2: the entries of `msg`
that the store `s` incorporates, that is those whose key is absent from `s` or held
with a strictly smaller `Expired`; nothing when there is none. -/
def novel {V : Type} (s msg : message V) : Option (message V) :=
  let inc := msg.Entries.filter (fun kv =>
    match s.Entries.get? kv.1 with
    | none => true
    | some existing => decide (existing.Expired < kv.2.Expired))
  if inc.items.isEmpty then none else some { PeerID := s.PeerID, Entries := inc }

/-- Modelled from the spec: the cache store (Go type `cache`, declared outside these
sources), after §3 and §6.  The store is represented by its snapshot message.
`set` writes the entry; `delete` returns the prior value and expiry and whether the key
existed, and leaves a tombstone; the three merges absorb a message under the
last-writer-wins rule of §4.2, and `mergeNew`, `mergeDelta` report the entries that
were incorporated, or nothing.  The size bound and eviction are unspecified and left
out.  The theorems about the peer hold for every store; this one only serves to
evaluate them on concrete inputs. -/
def specCache {V : Type} [Inhabited V] : cache (message V) V where
  Set s key val expired deleted := s.add key val expired deleted
  Delete s key deleteTimestamp :=
    match s.Entries.get? key with
    | none => ((default, 0, false), s)
    | some e => ((e.Val, e.Expired, true), s.add key e.Val e.Expired deleteTimestamp)
  mergeNew s msg := (novel s msg, (s.mergeComplete msg).1)
  mergeDelta s msg := (novel s msg, (s.mergeComplete msg).1)
  mergeComplete s msg := (s.mergeComplete msg).1

/-- Modelled from the spec: the entry part of a sample frame for `specUnmarshal` (the
codec is declared outside these sources).  Groups of four numbers are read as
entries: key character, value, expiry, deletion. -/
def decodeEntries : List Nat → Option (List (String × entry Nat))
  | [] => some []
  | k :: v :: e :: d :: rest =>
    (decodeEntries rest).map (fun l =>
      (String.singleton (Char.ofNat k), { Val := v, Expired := e, Deleted := d }) :: l)
  | _ => none

/-- Modelled from the spec: the decoder `unmarshal` (the codec is declared outside these
sources; §6 only fixes that a frame carries the peer identifier and, per key, value,
expiry and deletion, and §4.1 that malformed input fails).  Sample frame format: the
peer identifier, then groups of four numbers, one group per entry.  An empty frame
or an incomplete group is malformed. -/
def specUnmarshal : Unmarshal Nat := fun b m =>
  match b with
  | [] => (m, some "EOF")
  | peerID :: rest =>
    match decodeEntries rest with
    | none => (m, some "unexpected EOF")
    | some l =>
      ({ PeerID := peerID, Entries := l.foldl (fun es kv => es.set kv.1 kv.2) m.Entries }, none)

/-- The entry `x` is held for key `k` by one of the three messages. -/
def holds {V : Type} (S a b : message V) (k : String) (x : entry V) : Prop :=
  S.Entries.get? k = some x ∨ a.Entries.get? k = some x ∨ b.Entries.get? k = some x

/-- Unique versions: two entries for one key among `S`, `a` and `b` that have equal
`Expired` are the same entry. -/
def uniqueVersions {V : Type} (S a b : message V) : Prop :=
  ∀ k x y, holds S a b k x → holds S a b k y → x.Expired = y.Expired → x = y

/-- An empty state message of peer 1. -/
def sampleEmpty : message Nat := newMessage 1 0

/-- Peer 2 wrote `x = 1` with expiry 100. -/
def sampleA : message Nat := (newMessage 2 1).add "x" 1 100 0

/-- Peer 3 wrote `x = 2` with the same expiry 100. -/
def sampleB : message Nat := (newMessage 3 1).add "x" 2 100 0

/-- Peer 3 wrote `x = 2` with the later expiry 150. -/
def sampleC : message Nat := (newMessage 3 1).add "x" 2 150 0

/-- Peer 2 with a registered handle, whose store holds `x = (1, 100, 0)`. -/
def samplePeer : peer (message Nat) := { cc := sampleA, name := 2, send := some 0 }

/-- Peer 2 before `register`, with the same store. -/
def samplePeerUnregistered : peer (message Nat) := { cc := sampleA, name := 2, send := none }

/-- A frame cut short inside its first entry. -/
def truncatedFrame : Bytes := [3, 120, 1]

/-! ## Maps: lookups after writes -/

section
variable {V : Type}

theorem lookupKey_filter_ne (k k1 : String) (l : List (String × V)) :
    lookupKey k1 (l.filter (fun kv => decide (kv.1 ≠ k))) =
      if k1 = k then none else lookupKey k1 l := by
  induction l with
  | nil => simp [lookupKey]
  | cons kv rest ih =>
    by_cases h : kv.1 = k
    · have hf : (kv :: rest).filter (fun kv => decide (kv.1 ≠ k))
          = rest.filter (fun kv => decide (kv.1 ≠ k)) := by simp [List.filter_cons, h]
      rw [hf, ih]
      by_cases h1 : k1 = k
      · simp [h1]
      · have h2 : ¬ kv.1 = k1 := fun e => h1 (e ▸ h)
        simp [h1, lookupKey, h2]
    · have hf : (kv :: rest).filter (fun kv => decide (kv.1 ≠ k))
          = kv :: rest.filter (fun kv => decide (kv.1 ≠ k)) := by simp [List.filter_cons, h]
      rw [hf]
      simp only [lookupKey]
      rw [ih]
      by_cases h1 : k1 = k
      · have h2 : ¬ kv.1 = k1 := fun e => h (e.trans h1)
        simp [h1, h2, h]
      · simp [h1]

theorem GoMap.get?_set (m : GoMap V) (k k1 : String) (v : V) :
    (m.set k v).get? k1 = if k1 = k then some v else m.get? k1 := by
  unfold GoMap.get? GoMap.set
  simp only [lookupKey]
  rw [lookupKey_filter_ne]
  by_cases h : k1 = k
  · simp [h]
  · have h2 : ¬ k = k1 := fun e => h e.symm
    simp [h, h2]

theorem GoMap.get?_make (n : Nat) (k : String) : (GoMap.make n : GoMap V).get? k = none := rfl

theorem lookupKey_eq_none {k : String} {l : List (String × V)} (h : k ∉ l.map Prod.fst) :
    lookupKey k l = none := by
  induction l with
  | nil => rfl
  | cons kv rest ih =>
    simp only [List.map_cons, List.mem_cons, not_or] at h
    have h1 : ¬ kv.1 = k := fun e => h.1 e.symm
    simp [lookupKey, h1, ih h.2]

theorem lookupKey_of_mem {l : List (String × V)} (hnd : (l.map Prod.fst).Nodup)
    {k : String} {v : V} (hmem : (k, v) ∈ l) : lookupKey k l = some v := by
  induction l with
  | nil => cases hmem
  | cons kv rest ih =>
    rw [List.map_cons, List.nodup_cons] at hnd
    rcases List.mem_cons.1 hmem with h | h
    · subst h
      simp [lookupKey]
    · have hne : ¬ kv.1 = k := by
        intro e
        exact hnd.1 (e ▸ List.mem_map_of_mem Prod.fst h)
      simp [lookupKey, hne, ih hnd.2 h]

theorem GoMap.get?_of_mem (m : GoMap V) {k : String} {v : V} (hmem : (k, v) ∈ m.items) :
    m.get? k = some v :=
  lookupKey_of_mem m.nodupKeys hmem

end

/-! ## The merge loop, key by key -/

section
variable {V : Type}

theorem resolve_none_right (cur : Option (entry V)) : resolve cur none = cur := rfl

theorem get?_mergeStep_self (es : GoMap (entry V)) (k : String) (v : entry V) :
    (mergeStep es (k, v)).get? k = resolve (es.get? k) (some v) := by
  unfold mergeStep resolve
  cases h : es.get? k with
  | none => simp [GoMap.get?_set]
  | some existing =>
    by_cases hlt : existing.Expired < v.Expired
    · simp [hlt, GoMap.get?_set]
    · simp [hlt, h]

theorem get?_mergeStep_ne (es : GoMap (entry V)) (kv : String × entry V) (k : String)
    (hne : k ≠ kv.1) : (mergeStep es kv).get? k = es.get? k := by
  unfold mergeStep
  cases es.get? kv.1 with
  | none => simp [GoMap.get?_set, hne]
  | some existing =>
    by_cases hlt : existing.Expired < kv.2.Expired
    · simp [hlt, GoMap.get?_set, hne]
    · simp [hlt]

/-- The loop of `mergeComplete`, read at one key: the receiver's entry is resolved
against the incoming entry for that key. -/
theorem get?_foldl_mergeStep (l : List (String × entry V)) (hnd : (l.map Prod.fst).Nodup)
    (es : GoMap (entry V)) (k : String) :
    (l.foldl mergeStep es).get? k = resolve (es.get? k) (lookupKey k l) := by
  induction l generalizing es with
  | nil => rfl
  | cons kv rest ih =>
    rw [List.map_cons, List.nodup_cons] at hnd
    rw [List.foldl_cons, ih hnd.2]
    by_cases h : kv.1 = k
    · subst h
      rw [lookupKey_eq_none hnd.1, resolve_none_right]
      simp only [lookupKey, if_true]
      exact get?_mergeStep_self es kv.1 kv.2
    · have hne : k ≠ kv.1 := fun e => h e.symm
      rw [get?_mergeStep_ne es kv k hne]
      simp [lookupKey, h]

/-- Entry of the receiver after `mergeComplete`, at one key. -/
theorem mergeComplete_get? (S m : message V) (k : String) :
    (S.mergeComplete m).1.Entries.get? k = resolve (S.Entries.get? k) (m.Entries.get? k) :=
  get?_foldl_mergeStep m.Entries.items m.Entries.nodupKeys S.Entries k

theorem get?_foldl_set (l : List (String × entry V)) (hnd : (l.map Prod.fst).Nodup)
    (acc : GoMap (entry V)) (k : String) :
    (l.foldl (fun newEntries kv => newEntries.set kv.1 kv.2) acc).get? k =
      match lookupKey k l with
      | some v => some v
      | none => acc.get? k := by
  induction l generalizing acc with
  | nil => rfl
  | cons kv rest ih =>
    rw [List.map_cons, List.nodup_cons] at hnd
    rw [List.foldl_cons, ih hnd.2]
    by_cases h : kv.1 = k
    · subst h
      rw [lookupKey_eq_none hnd.1]
      simp [lookupKey, GoMap.get?_set]
    · have hne : ¬ k = kv.1 := fun e => h e.symm
      simp [lookupKey, h, GoMap.get?_set, hne]

/-- The copy made by `newMessageFromEntries` holds the same entries. -/
theorem newMessageFromEntries_get? (peerID : PeerName) (es : GoMap (entry V)) (k : String) :
    (newMessageFromEntries peerID es).Entries.get? k = es.get? k := by
  unfold newMessageFromEntries
  simp only
  rw [get?_foldl_set es.items es.nodupKeys]
  unfold GoMap.get?
  cases lookupKey k es.items <;> rfl

/-- The message returned by `mergeComplete` holds the receiver's entries after the merge. -/
theorem mergeComplete_returned_get? (S m : message V) (k : String) :
    (S.mergeComplete m).2.Entries.get? k = (S.mergeComplete m).1.Entries.get? k :=
  newMessageFromEntries_get? _ _ k

/-- The order in which the loop visits `other.Entries` does not matter: two incoming
messages with the same entries leave the receiver with the same entries. -/
theorem mergeComplete_get?_congr (S m1 m2 : message V)
    (h : ∀ k, m1.Entries.get? k = m2.Entries.get? k) (k : String) :
    (S.mergeComplete m1).1.Entries.get? k = (S.mergeComplete m2).1.Entries.get? k := by
  rw [mergeComplete_get?, mergeComplete_get?, h k]

theorem foldl_mergeStep_fixed (l : List (String × entry V)) (es : GoMap (entry V))
    (h : ∀ kv ∈ l, ∃ c, es.get? kv.1 = some c ∧ ¬ c.Expired < kv.2.Expired) :
    l.foldl mergeStep es = es := by
  induction l with
  | nil => rfl
  | cons kv rest ih =>
    rcases h kv (List.mem_cons_self _ _) with ⟨c, hc, hlt⟩
    have hstep : mergeStep es kv = es := by
      unfold mergeStep
      rw [hc]
      simp [hlt]
    rw [List.foldl_cons, hstep]
    exact ih (fun kv1 hmem => h kv1 (List.mem_cons_of_mem _ hmem))

theorem resolve_some_right (cur : Option (entry V)) (v : entry V) :
    ∃ c, resolve cur (some v) = some c ∧ ¬ c.Expired < v.Expired := by
  unfold resolve
  cases cur with
  | none => exact ⟨v, rfl, lt_irrefl _⟩
  | some existing =>
    by_cases hlt : existing.Expired < v.Expired
    · exact ⟨v, by simp [hlt], lt_irrefl _⟩
    · exact ⟨existing, by simp [hlt], hlt⟩

end

/-! ## Resolution of one key -/

section
variable {V : Type}

theorem resolve_comm_iff (s x y : Option (entry V)) :
    resolve (resolve s x) y = resolve (resolve s y) x ↔
      ∀ u w, x = some u → y = some w → u.Expired = w.Expired → u ≠ w →
        ∃ c, s = some c ∧ u.Expired ≤ c.Expired := by
  cases x with
  | none => simp [resolve]
  | some u =>
    cases y with
    | none => simp [resolve]
    | some w =>
      cases s with
      | none =>
        simp only [resolve]
        rcases lt_trichotomy u.Expired w.Expired with h | h | h
        · have h2 : ¬ w.Expired < u.Expired := not_lt.2 (le_of_lt h)
          simp [h, h2]
          intro he
          omega
        · have h1 : ¬ u.Expired < w.Expired := by omega
          have h2 : ¬ w.Expired < u.Expired := by omega
          simp [h1, h2, h]
        · have h1 : ¬ u.Expired < w.Expired := by omega
          simp [h, h1]
          intro he
          omega
      | some c =>
        simp only [resolve]
        constructor
        · intro heq u1 w1 hu hw he hne
          cases hu; cases hw
          refine ⟨c, rfl, ?_⟩
          by_contra hlt
          have h1 : c.Expired < u.Expired := by omega
          have h2 : c.Expired < w.Expired := by omega
          have h3 : ¬ u.Expired < w.Expired := by omega
          have h4 : ¬ w.Expired < u.Expired := by omega
          simp [h1, h2, h3, h4] at heq
          exact hne heq
        · intro hcond
          by_cases h1 : c.Expired < u.Expired <;> by_cases h2 : c.Expired < w.Expired <;>
            by_cases h3 : u.Expired < w.Expired <;> by_cases h4 : w.Expired < u.Expired <;>
            simp only [h1, h2, h3, h4, if_true, if_false] <;> try (first | rfl | (exfalso; omega))
          by_cases huw : u = w
          · rw [huw]
          · rcases hcond u w rfl rfl (by omega) huw with ⟨c1, hc1, hle⟩
            cases hc1
            omega

theorem resolve_isSome (cur inc : Option (entry V)) :
    (resolve cur inc).isSome ↔ cur.isSome ∨ inc.isSome := by
  cases inc with
  | none => simp [resolve]
  | some v =>
    cases cur with
    | none => simp [resolve]
    | some c =>
      by_cases h : c.Expired < v.Expired <;> simp [resolve, h]

/-- The resolved entry is one of the two, and no smaller in `Expired` than either. -/
theorem resolve_max (cur inc : Option (entry V)) (r : entry V) (h : resolve cur inc = some r) :
    (cur = some r ∨ inc = some r) ∧ (∀ e, cur = some e → e.Expired ≤ r.Expired) ∧
      (∀ e, inc = some e → e.Expired ≤ r.Expired) := by
  cases inc with
  | none =>
    simp only [resolve] at h
    subst h
    refine ⟨Or.inl rfl, ?_, ?_⟩
    · intro e he
      cases he
      exact le_refl _
    · intro e he
      cases he
  | some v =>
    cases cur with
    | none =>
      simp only [resolve] at h
      cases h
      refine ⟨Or.inr rfl, ?_, ?_⟩
      · intro e he
        cases he
      · intro e he
        cases he
        exact le_refl _
    | some c =>
      simp only [resolve] at h
      by_cases hlt : c.Expired < v.Expired
      · rw [if_pos hlt] at h
        cases h
        refine ⟨Or.inr rfl, ?_, ?_⟩
        · intro e he
          cases he
          exact le_of_lt hlt
        · intro e he
          cases he
          exact le_refl _
      · rw [if_neg hlt] at h
        cases h
        refine ⟨Or.inl rfl, ?_, ?_⟩
        · intro e he
          cases he
          exact le_refl _
        · intro e he
          cases he
          exact not_lt.1 hlt

/-- Entry of a freshly built one-entry message, as `Set` and `Delete` build it. -/
theorem newMessage_add_get? (n : PeerName) (c : Nat) (key : String) (val : V) (e d : Int)
    (k : String) :
    ((newMessage n c).add key val e d).Entries.get? k =
      if k = key then some { Val := val, Expired := e, Deleted := d } else none := by
  unfold message.add
  simp only
  rw [GoMap.get?_set]
  rfl

theorem newMessage_add_items (n : PeerName) (c : Nat) (key : String) (val : V) (e d : Int) :
    ((newMessage n c).add key val e d).Entries.items =
      [(key, { Val := val, Expired := e, Deleted := d })] := rfl

theorem newMessage_get? (n : PeerName) (c : Nat) (k : String) :
    (newMessage n c : message V).Entries.get? k = none := rfl

end

/-! ## Properties of `mergeComplete` -/

section
variable {V : Type}

/-- C3: last-writer-wins, key by key.  After `S.mergeComplete m` the receiver's entry
for `k` is (i) the incoming entry `v` when `k` was absent from `S` or held with a
strictly smaller `Expired`; (ii) the resident entry when its `Expired` is greater than
or equal to the incoming one; (iii) unchanged (possibly still absent) when `m` has no
entry for `k`.  (iv) Which side is taken is a function of the presence and the `Expired`
values of the two entries alone: `Val` and `Deleted` play no part. -/
theorem mergeComplete_lww (S m : message V) (k : String) :
    (∀ v, m.Entries.get? k = some v →
      (S.Entries.get? k = none ∨ ∃ c, S.Entries.get? k = some c ∧ c.Expired < v.Expired) →
      (S.mergeComplete m).1.Entries.get? k = some v) ∧
    (∀ v c, m.Entries.get? k = some v → S.Entries.get? k = some c →
      v.Expired ≤ c.Expired → (S.mergeComplete m).1.Entries.get? k = some c) ∧
    (m.Entries.get? k = none → (S.mergeComplete m).1.Entries.get? k = S.Entries.get? k) ∧
    (∃ pick : Option Int → Option Int → Bool, ∀ (S1 m1 : message V) (k1 : String),
      (S1.mergeComplete m1).1.Entries.get? k1 =
        if pick ((S1.Entries.get? k1).map entry.Expired)
            ((m1.Entries.get? k1).map entry.Expired) = true
        then m1.Entries.get? k1 else S1.Entries.get? k1) := by
  refine ⟨?_, ?_, ?_, ?_⟩
  · intro v hm hS
    rw [mergeComplete_get?, hm]
    rcases hS with hS | ⟨c, hS, hlt⟩
    · rw [hS]
      rfl
    · rw [hS]
      simp [resolve, hlt]
  · intro v c hm hS hle
    rw [mergeComplete_get?, hm, hS]
    have hlt : ¬ c.Expired < v.Expired := not_lt.2 hle
    simp [resolve, hlt]
  · intro hm
    rw [mergeComplete_get?, hm]
    rfl
  · refine ⟨fun cur inc =>
      match inc with
      | none => false
      | some e1 =>
        match cur with
        | none => true
        | some e0 => decide (e0 < e1), ?_⟩
    intro S1 m1 k1
    rw [mergeComplete_get?]
    cases m1.Entries.get? k1 with
    | none => simp [resolve]
    | some v =>
      cases S1.Entries.get? k1 with
      | none => simp [resolve]
      | some c =>
        by_cases hlt : c.Expired < v.Expired <;> simp [resolve, hlt]

/-- Instance of C3 (i) and (ii): an empty receiver takes the incoming entry, and a
receiver that holds `x` with expiry 150 keeps it against expiry 100. -/
theorem mergeComplete_lww_witness :
    (sampleEmpty.mergeComplete sampleA).1.Entries.get? "x"
        = some { Val := 1, Expired := 100, Deleted := 0 } ∧
    (sampleC.mergeComplete sampleA).1.Entries.get? "x"
        = some { Val := 2, Expired := 150, Deleted := 0 } :=
  ⟨(mergeComplete_lww sampleEmpty sampleA "x").1 _ rfl (Or.inl rfl),
   (mergeComplete_lww sampleC sampleA "x").2.1 _ _ rfl rfl (by decide)⟩

/-- C2: idempotence.  Merging `m` into `S` a second time changes nothing: the receiver
after two merges is the receiver after one merge, and the second call returns the
same message as the first.  The same holds when the second delivery `m2` has the
entries of `m` visited in another order. -/
theorem mergeComplete_idempotent (S m : message V) :
    ((S.mergeComplete m).1.mergeComplete m).1 = (S.mergeComplete m).1 ∧
    ((S.mergeComplete m).1.mergeComplete m).2 = (S.mergeComplete m).2 ∧
    (∀ m2 : message V, (∀ k, m2.Entries.get? k = m.Entries.get? k) →
      ((S.mergeComplete m).1.mergeComplete m2).1 = (S.mergeComplete m).1 ∧
      ((S.mergeComplete m).1.mergeComplete m2).2 = (S.mergeComplete m).2) := by
  have hfix : ∀ m2 : message V, (∀ k, m2.Entries.get? k = m.Entries.get? k) →
      m2.Entries.items.foldl mergeStep (S.mergeComplete m).1.Entries
        = (S.mergeComplete m).1.Entries := by
    intro m2 h2
    apply foldl_mergeStep_fixed
    intro kv hmem
    have hget : m.Entries.get? kv.1 = some kv.2 := by
      rw [← h2]
      exact m2.Entries.get?_of_mem hmem
    rw [mergeComplete_get?, hget]
    exact resolve_some_right _ _
  have hboth : ∀ m2 : message V, (∀ k, m2.Entries.get? k = m.Entries.get? k) →
      ((S.mergeComplete m).1.mergeComplete m2).1 = (S.mergeComplete m).1 ∧
      ((S.mergeComplete m).1.mergeComplete m2).2 = (S.mergeComplete m).2 := by
    intro m2 h2
    constructor
    · show ({ (S.mergeComplete m).1 with
          Entries := m2.Entries.items.foldl mergeStep (S.mergeComplete m).1.Entries } :
          message V) = (S.mergeComplete m).1
      rw [hfix m2 h2]
    · show newMessageFromEntries (S.mergeComplete m).1.PeerID
          (m2.Entries.items.foldl mergeStep (S.mergeComplete m).1.Entries)
        = (S.mergeComplete m).2
      rw [hfix m2 h2]
      rfl
  exact ⟨(hboth m (fun _ => rfl)).1, (hboth m (fun _ => rfl)).2, hboth⟩

/-- Instance of C2: `sampleA` delivered twice to the empty receiver. -/
theorem mergeComplete_idempotent_witness :
    ((sampleEmpty.mergeComplete sampleA).1.mergeComplete sampleA).1
      = (sampleEmpty.mergeComplete sampleA).1 :=
  ((mergeComplete_idempotent sampleEmpty sampleA).2.2 sampleA (fun _ => rfl)).1

/-- C1 as stated fails: with an empty receiver and two messages that hold `x` with the
same expiry 100 but different values, the first one merged stays. -/
theorem mergeComplete_not_commutative :
    ((sampleEmpty.mergeComplete sampleA).1.mergeComplete sampleB).1.Entries.get? "x"
        = some { Val := 1, Expired := 100, Deleted := 0 } ∧
    ((sampleEmpty.mergeComplete sampleB).1.mergeComplete sampleA).1.Entries.get? "x"
        = some { Val := 2, Expired := 100, Deleted := 0 } ∧
    ((sampleEmpty.mergeComplete sampleA).1.mergeComplete sampleB).1.Entries.get? "x"
        ≠ ((sampleEmpty.mergeComplete sampleB).1.mergeComplete sampleA).1.Entries.get? "x" := by
  refine ⟨by decide, by decide, by decide⟩

/-- C1, amended: merging `a` then `b` into `S` leaves the same entry map as merging `b`
then `a` exactly when every key that `a` and `b` both hold with equal `Expired` but
different entries is already held by `S` with an `Expired` at least as large. -/
theorem mergeComplete_comm_iff (S a b : message V) :
    (∀ k, ((S.mergeComplete a).1.mergeComplete b).1.Entries.get? k
        = ((S.mergeComplete b).1.mergeComplete a).1.Entries.get? k) ↔
    (∀ k x y, a.Entries.get? k = some x → b.Entries.get? k = some y →
      x.Expired = y.Expired → x ≠ y →
      ∃ c, S.Entries.get? k = some c ∧ x.Expired ≤ c.Expired) := by
  constructor
  · intro h k
    have hk := h k
    rw [mergeComplete_get?, mergeComplete_get?, mergeComplete_get?, mergeComplete_get?] at hk
    exact (resolve_comm_iff _ _ _).1 hk
  · intro h k
    rw [mergeComplete_get?, mergeComplete_get?, mergeComplete_get?, mergeComplete_get?]
    exact (resolve_comm_iff _ _ _).2 (h k)

/-- Instance of the amended C1: `sampleA` and `sampleC` hold `x` with different
expiries, so they commute on the empty receiver. -/
theorem mergeComplete_comm_iff_witness :
    ∀ k, ((sampleEmpty.mergeComplete sampleA).1.mergeComplete sampleC).1.Entries.get? k
        = ((sampleEmpty.mergeComplete sampleC).1.mergeComplete sampleA).1.Entries.get? k :=
  (mergeComplete_comm_iff sampleEmpty sampleA sampleC).2 (by
    intro k x y hx hy he
    unfold sampleA at hx
    unfold sampleC at hy
    rw [newMessage_add_get?] at hx hy
    by_cases hk : k = "x"
    · rw [if_pos hk] at hx hy
      cases hx
      cases hy
      exact absurd he (by decide)
    · rw [if_neg hk] at hx
      cases hx)

/-- Two successive resolutions yield one of the three entries, and one with the
greatest `Expired`. -/
theorem resolve_resolve_max (s x y : Option (entry V)) (r : entry V)
    (h : resolve (resolve s x) y = some r) :
    (s = some r ∨ x = some r ∨ y = some r) ∧
      ∀ e, (s = some e ∨ x = some e ∨ y = some e) → e.Expired ≤ r.Expired := by
  rcases resolve_max _ _ r h with ⟨hor, hle1, hle2⟩
  cases hq : resolve s x with
  | none =>
    have hnone : ¬ (s.isSome ∨ x.isSome) := by
      rw [← resolve_isSome, hq]
      simp
    have hs : s = none := by
      cases s with
      | none => rfl
      | some c => exact absurd (Or.inl rfl) hnone
    have hx : x = none := by
      cases x with
      | none => rfl
      | some c => exact absurd (Or.inr rfl) hnone
    subst hs
    subst hx
    rw [hq] at hor
    refine ⟨?_, ?_⟩
    · rcases hor with hor | hor
      · cases hor
      · exact Or.inr (Or.inr hor)
    · intro e he
      rcases he with he | he | he
      · cases he
      · cases he
      · exact hle2 e he
  | some q =>
    rcases resolve_max s x q hq with ⟨hor2, hle3, hle4⟩
    have hqr : q.Expired ≤ r.Expired := hle1 q hq
    refine ⟨?_, ?_⟩
    · rcases hor with hor | hor
      · rw [hq] at hor
        cases hor
        rcases hor2 with h2 | h2
        · exact Or.inl h2
        · exact Or.inr (Or.inl h2)
      · exact Or.inr (Or.inr hor)
    · intro e he
      rcases he with he | he | he
      · exact le_trans (hle3 e he) hqr
      · exact le_trans (hle4 e he) hqr
      · exact hle2 e he

/-- C9: commutativity under unique versions.  When two entries for one key among `S`,
`a` and `b` with equal `Expired` are always the same entry, merging `a` then `b` leaves
the same entry for every key as merging `b` then `a`; in both orders a key is present
exactly when one of `S`, `a`, `b` holds it, and the entry it holds is one of theirs
with the greatest `Expired`. -/
theorem mergeComplete_comm_of_uniqueVersions (S a b : message V) (h : uniqueVersions S a b)
    (k : String) :
    ((S.mergeComplete a).1.mergeComplete b).1.Entries.get? k
        = ((S.mergeComplete b).1.mergeComplete a).1.Entries.get? k ∧
    ((((S.mergeComplete a).1.mergeComplete b).1.Entries.get? k).isSome ↔
      (S.Entries.get? k).isSome ∨ (a.Entries.get? k).isSome ∨ (b.Entries.get? k).isSome) ∧
    ((((S.mergeComplete b).1.mergeComplete a).1.Entries.get? k).isSome ↔
      (S.Entries.get? k).isSome ∨ (a.Entries.get? k).isSome ∨ (b.Entries.get? k).isSome) ∧
    (∀ r, ((S.mergeComplete a).1.mergeComplete b).1.Entries.get? k = some r →
      holds S a b k r ∧ ∀ x, holds S a b k x → x.Expired ≤ r.Expired) ∧
    (∀ r, ((S.mergeComplete b).1.mergeComplete a).1.Entries.get? k = some r →
      holds S a b k r ∧ ∀ x, holds S a b k x → x.Expired ≤ r.Expired) := by
  have hab : ((S.mergeComplete a).1.mergeComplete b).1.Entries.get? k
      = resolve (resolve (S.Entries.get? k) (a.Entries.get? k)) (b.Entries.get? k) := by
    rw [mergeComplete_get?, mergeComplete_get?]
  have hba : ((S.mergeComplete b).1.mergeComplete a).1.Entries.get? k
      = resolve (resolve (S.Entries.get? k) (b.Entries.get? k)) (a.Entries.get? k) := by
    rw [mergeComplete_get?, mergeComplete_get?]
  have hcomm : resolve (resolve (S.Entries.get? k) (a.Entries.get? k)) (b.Entries.get? k)
      = resolve (resolve (S.Entries.get? k) (b.Entries.get? k)) (a.Entries.get? k) := by
    apply (resolve_comm_iff _ _ _).2
    intro u w hu hw he hne
    exact absurd (h k u w (Or.inr (Or.inl hu)) (Or.inr (Or.inr hw)) he) hne
  have hsome : (resolve (resolve (S.Entries.get? k) (a.Entries.get? k))
      (b.Entries.get? k)).isSome ↔
      (S.Entries.get? k).isSome ∨ (a.Entries.get? k).isSome ∨ (b.Entries.get? k).isSome := by
    rw [resolve_isSome, resolve_isSome, or_assoc]
  have hmax : ∀ r, resolve (resolve (S.Entries.get? k) (a.Entries.get? k))
      (b.Entries.get? k) = some r →
      holds S a b k r ∧ ∀ x, holds S a b k x → x.Expired ≤ r.Expired :=
    fun r hr => resolve_resolve_max _ _ _ r hr
  rw [hab, hba, ← hcomm]
  exact ⟨rfl, hsome, hsome, hmax, hmax⟩

/-- Instance of C9: the empty receiver, `sampleA` (expiry 100) and `sampleC`
(expiry 150) have unique versions. -/
theorem mergeComplete_comm_of_uniqueVersions_witness :
    uniqueVersions sampleEmpty sampleA sampleC ∧
    ((sampleEmpty.mergeComplete sampleA).1.mergeComplete sampleC).1.Entries.get? "x"
        = ((sampleEmpty.mergeComplete sampleC).1.mergeComplete sampleA).1.Entries.get? "x" :=
  have hu : uniqueVersions sampleEmpty sampleA sampleC := by
    intro k x y hx hy he
    unfold holds sampleEmpty sampleA sampleC at hx hy
    rw [newMessage_get?, newMessage_add_get?, newMessage_add_get?] at hx hy
    by_cases hk : k = "x"
    · rw [if_pos hk, if_pos hk] at hx hy
      rcases hx with hx | hx | hx
      · cases hx
      · cases hx
        rcases hy with hy | hy | hy
        · cases hy
        · cases hy
          rfl
        · cases hy
          exact absurd he (by decide)
      · cases hx
        rcases hy with hy | hy | hy
        · cases hy
        · cases hy
          exact absurd he (by decide)
        · cases hy
          rfl
    · rw [if_neg hk, if_neg hk] at hx
      rcases hx with hx | hx | hx <;> cases hx
  ⟨hu, (mergeComplete_comm_of_uniqueVersions sampleEmpty sampleA sampleC hu "x").1⟩

/-- C10: a delete's tombstone loses the tie against the entry it deletes.  If `S` holds
`(v, e, d)` for `k`, then merging any message whose only entry is the tombstone
`k: (v, e, t)` leaves `S` with `(v, e, d)` for `k`; and that is the message `peer.Delete`
broadcasts when the store reports that `k` existed with value `v` and expiry `e`. -/
theorem tombstone_loses_tie (S : message V) (k : String) (v : V) (e d t : Int)
    (hS : S.Entries.get? k = some { Val := v, Expired := e, Deleted := d }) :
    (∀ tomb : message V,
      tomb.Entries.items = [(k, { Val := v, Expired := e, Deleted := t })] →
      (S.mergeComplete tomb).1.Entries.get? k
        = some { Val := v, Expired := e, Deleted := d }) ∧
    (∀ (σ : Type) (cc : cache σ V) (p : peer σ) (send : Gossip) (store : σ),
      p.send = some send → cc.Delete p.cc k t = ((v, e, true), store) →
      ∃ tomb : message V, broadcasts (peer.Delete cc p k t).calls = [tomb] ∧
        tomb.PeerID = p.name ∧
        tomb.Entries.items = [(k, { Val := v, Expired := e, Deleted := t })]) := by
  constructor
  · intro tomb htomb
    have hget : tomb.Entries.get? k = some { Val := v, Expired := e, Deleted := t } := by
      unfold GoMap.get?
      rw [htomb]
      simp [lookupKey]
    rw [mergeComplete_get?, hS, hget]
    simp [resolve]
  · intro σ cc p send store hsend hdel
    refine ⟨(newMessage p.name 1).add k v e t, ?_, rfl, rfl⟩
    unfold peer.Delete peer.broadcast
    simp only [hdel, hsend]
    rfl

/-- Instance of C10: `sampleA` holds `x = (1, 100, 0)`; the tombstone with deletion
time 200 and the same expiry 100 does not replace it. -/
theorem tombstone_loses_tie_witness :
    (sampleA.mergeComplete ((newMessage 7 1).add "x" 1 100 200)).1.Entries.get? "x"
      = some { Val := 1, Expired := 100, Deleted := 0 } :=
  (tombstone_loses_tie sampleA "x" 1 100 0 200 (by decide)).1 _ rfl

end

/-! ## Properties of the peer -/

section
variable {σ V : Type}

/-- The value `Delete` returns is the outer `exist`, which the closure never assigns. -/
theorem peer_Delete_ret (cc : cache σ V) (p : peer σ) (key : String) (deleteTimestamp : Int) :
    (peer.Delete cc p key deleteTimestamp).ret = false := rfl

/-- C4 fails on the code: the store of `samplePeer` holds `x` and its `Delete` reports
that the key existed (the closure goes on to broadcast the tombstone), yet
`peer.Delete` returns false. -/
theorem peer_Delete_returns_false_for_existing_key :
    (specCache.Delete samplePeer.cc "x" 200).1 = (1, 100, true) ∧
    (broadcasts (peer.Delete specCache samplePeer "x" 200).calls).map
        (fun msg => msg.Entries.items)
      = [[("x", { Val := 1, Expired := 100, Deleted := 200 })]] ∧
    (peer.Delete specCache samplePeer "x" 200).ret = false := by
  refine ⟨by decide, by decide, by decide⟩

/-- C5: what `peer.Delete` broadcasts.  With a registered handle `send`: if the store's
`Delete` reports that the key did not exist, the only call is that `Delete` and nothing
is broadcast; if it reports that the key existed with value `val` and expiry `e`, the
calls are that `Delete` followed by one `GossipBroadcast` of a message tagged with the
peer's name whose entries are exactly `key: (val, e, deleteTimestamp)`. -/
theorem peer_Delete_broadcast (cc : cache σ V) (p : peer σ) (send : Gossip) (key : String)
    (deleteTimestamp : Int) (val : V) (e : Int) (exist : Bool) (store : σ)
    (hsend : p.send = some send)
    (hdel : cc.Delete p.cc key deleteTimestamp = ((val, e, exist), store)) :
    (exist = false →
      (peer.Delete cc p key deleteTimestamp).calls = [call.ccDelete key deleteTimestamp] ∧
      broadcasts (peer.Delete cc p key deleteTimestamp).calls = []) ∧
    (exist = true →
      ∃ msg : message V,
        (peer.Delete cc p key deleteTimestamp).calls
          = [call.ccDelete key deleteTimestamp, call.GossipBroadcast send msg] ∧
        broadcasts (peer.Delete cc p key deleteTimestamp).calls = [msg] ∧
        msg.PeerID = p.name ∧
        msg.Entries.items = [(key, { Val := val, Expired := e, Deleted := deleteTimestamp })]) := by
  constructor
  · intro hex
    subst hex
    unfold peer.Delete
    simp only [hdel]
    exact ⟨rfl, rfl⟩
  · intro hex
    subst hex
    refine ⟨(newMessage p.name 1).add key val e deleteTimestamp, ?_, ?_, rfl, rfl⟩
    · unfold peer.Delete peer.broadcast
      simp only [hdel, hsend]
      rfl
    · unfold peer.Delete peer.broadcast
      simp only [hdel, hsend]
      rfl

/-- Instance of C5: `samplePeer` deletes the key `x` that its store holds. -/
theorem peer_Delete_broadcast_witness :
    ∃ msg : message Nat,
      (peer.Delete specCache samplePeer "x" 200).calls
        = [call.ccDelete "x" 200, call.GossipBroadcast 0 msg] ∧
      broadcasts (peer.Delete specCache samplePeer "x" 200).calls = [msg] ∧
      msg.PeerID = samplePeer.name ∧
      msg.Entries.items = [("x", { Val := 1, Expired := 100, Deleted := 200 })] :=
  (peer_Delete_broadcast specCache samplePeer 0 "x" 200 1 100 true
    (sampleA.add "x" 1 100 200) rfl rfl).2 rfl

/-- C6: effect of `peer.Set`.  The store is written once, by `Set(key, val,
expiredTimestamp, 0)`, and nothing else of the peer changes.  With a registered handle
the calls are that write followed by one `GossipBroadcast` of a message tagged with the
peer's name whose entries are exactly `key: (val, expiredTimestamp, 0)`; without a
handle the write is the only call. -/
theorem peer_Set_effect (cc : cache σ V) (p : peer σ) (key : String) (val : V)
    (expiredTimestamp : Int) :
    (peer.Set cc p key val expiredTimestamp).p
      = { p with cc := cc.Set p.cc key val expiredTimestamp 0 } ∧
    (∀ send, p.send = some send →
      ∃ msg : message V,
        (peer.Set cc p key val expiredTimestamp).calls
          = [call.ccSet key val expiredTimestamp 0, call.GossipBroadcast send msg] ∧
        msg.PeerID = p.name ∧
        msg.Entries.items = [(key, { Val := val, Expired := expiredTimestamp, Deleted := 0 })]) ∧
    (p.send = none →
      (peer.Set cc p key val expiredTimestamp).calls
        = [call.ccSet key val expiredTimestamp 0]) := by
  refine ⟨rfl, ?_, ?_⟩
  · intro send hsend
    refine ⟨(newMessage p.name 1).add key val expiredTimestamp 0, ?_, rfl, rfl⟩
    unfold peer.Set peer.broadcast
    simp only [hsend]
  · intro hsend
    unfold peer.Set peer.broadcast
    simp only [hsend]

/-- Instance of C6: `Set` on a peer without a handle writes the store and sends nothing. -/
theorem peer_Set_effect_witness :
    (peer.Set specCache samplePeerUnregistered "y" 5 300).calls = [call.ccSet "y" 5 300 0] :=
  (peer_Set_effect specCache samplePeerUnregistered "y" 5 300).2.2 rfl

/-- C7: self-broadcast guard.  For every frame, `OnGossipBroadcast` with `src` equal to
the peer's own name returns no data and no error, leaves the peer and its store as
they were, and makes no call at all: no decoding and no merge. -/
theorem OnGossipBroadcast_self (cc : cache σ V) (unmarshal : Unmarshal V) (p : peer σ)
    (update : Bytes) :
    peer.OnGossipBroadcast cc unmarshal p p.name update
      = { ret := (none, none), p := p, calls := [] } := by
  unfold peer.OnGossipBroadcast
  rw [if_pos rfl]

/-- C8: decode failure.  When decoding the frame returns the error `err`, `OnGossip`,
`OnGossipBroadcast` (from another peer) and `OnGossipUnicast` return that error and no
data, leave the peer and its store as they were, and their only call is the decoding:
no merge is invoked. -/
theorem decode_failure_no_merge (cc : cache σ V) (unmarshal : Unmarshal V) (p : peer σ)
    (src : PeerName) (buf : Bytes) (err : GoError)
    (herr : (newMessageFromBuf unmarshal buf).2 = some err) (hsrc : src ≠ p.name) :
    peer.OnGossip cc unmarshal p buf
      = { ret := (none, some err), p := p, calls := [call.unmarshal buf] } ∧
    peer.OnGossipBroadcast cc unmarshal p src buf
      = { ret := (none, some err), p := p, calls := [call.unmarshal buf] } ∧
    (∀ from_ : PeerName, peer.OnGossipUnicast cc unmarshal p from_ buf
      = { ret := some err, p := p, calls := [call.unmarshal buf] }) := by
  refine ⟨?_, ?_, ?_⟩
  · unfold peer.OnGossip
    simp only [herr]
  · unfold peer.OnGossipBroadcast
    rw [if_neg hsrc]
    simp only [herr]
  · intro from_
    unfold peer.OnGossipUnicast
    simp only [herr]

/-- Instance of C8: a frame cut short inside its first entry fails to decode. -/
theorem decode_failure_no_merge_witness :
    (newMessageFromBuf specUnmarshal truncatedFrame).2 = some "unexpected EOF" ∧
    peer.OnGossip specCache specUnmarshal samplePeer truncatedFrame
      = { ret := (none, some "unexpected EOF"), p := samplePeer,
          calls := [call.unmarshal truncatedFrame] } :=
  ⟨rfl, (decode_failure_no_merge specCache specUnmarshal samplePeer 3 truncatedFrame
    "unexpected EOF" rfl (by decide)).1⟩

end

end bcache
